import Mathlib

/-!
Verification of the TrueType subsetting core of scribe-go (package `ttf`,
file `font.go`).

Shallow embedding conventions:
* Byte buffers are modelled as functions `Nat → Nat`; every read reduces the
  byte modulo 256, matching Go's `[]byte` contents.
* Go's `binary.BigEndian.Uint16/Uint32` become `readU16`/`readU32`.
* Machine-integer wraparound (`u16`, `u32`) is made explicit with `% 65536`
  and `% 4294967296` at the operations where the Go code can wrap.
* Go panics (out-of-range slice indexing, the explicit `panic` calls) are
  modelled by `Option`/failure results (`none`).
* The `bits-and-blooms` bitset used by the generator is a set of small
  naturals whose `AsSlice` iterates set members in ascending order; it is
  modelled as a strictly ascending duplicate-free `List Nat` with ordered
  insertion (`bsInsert` models `BitSet.Set`, the list itself is `AsSlice`).
* The mutable `*Font` shared by parser and generator becomes an explicit
  value threaded through (and returned by) the embedded `generate`, so that
  frame conditions ("the font is not mutated") are statable.
* `float32` metric fields of the Go `Font` struct are carried as abstract
  integer-valued fields: the generator never reads nor writes them, which is
  all the claims about them need.
-/

namespace Ttf

/-- Big-endian 16-bit read at a byte position, as in `Reader.u16` /
`binary.BigEndian.Uint16`. -/
def readU16 (buf : Nat → Nat) (pos : Nat) : Nat :=
  buf pos % 256 * 256 + buf (pos + 1) % 256

/-- Big-endian 32-bit read at a byte position, as in `Reader.u32` /
`binary.BigEndian.Uint32`. -/
def readU32 (buf : Nat → Nat) (pos : Nat) : Nat :=
  readU16 buf pos * 65536 + readU16 buf (pos + 2)

/-- The parsed font model (Go struct `Font`).  `gids` is the
`[256 * 256]u16` codepoint-to-glyph array, modelled as a total function
together with the bound `256 * 256` enforced by `Font.glyphId`. -/
structure Font where
  gids : Nat → Nat
  widths : Nat → Int
  boundsMin : Int × Int
  boundsMax : Int × Int
  ascent : Int
  capHeight : Int
  descent : Int
  flags : Nat
  italicAngle : Int
  scale : Int
  strikeoutPos : Int
  strikeoutSize : Int
  underlinePos : Int
  underlineSize : Int
  glyphCount : Nat
  metricCount : Nat
  weightClass : Nat
  locaFormat : Nat

/-- `Font.GlyphId`: `return f.gids[char]`.  The Go array has exactly
`256 * 256` entries, so indexing panics (`none`) for any codepoint at or
above `0x10000` and is in bounds otherwise. -/
def Font.glyphId (f : Font) (char : Nat) : Option Nat :=
  if char < 256 * 256 then some (f.gids char) else none

/-- Ordered insertion into the ascending set-member list: the model of
`bitset.BitSet.Set` (a no-op when the bit is already set). -/
def bsInsert (x : Nat) : List Nat → List Nat
  | [] => [x]
  | y :: rest =>
    if x < y then x :: y :: rest
    else if x = y then y :: rest
    else y :: bsInsert x rest

/-- The seeding loop of `genGlyfAndLoca`: glyph 0 plus
`font.GlyphId(rune(char))` for every requested codepoint.  A codepoint at or
above `0x10000` makes `GlyphId` panic (`none`). -/
def seedGids (font : Font) : List Nat → List Nat → Option (List Nat)
  | [], seen => some seen
  | c :: rest, seen =>
    match font.glyphId c with
    | none => none
    | some gid => seedGids font rest (bsInsert gid seen)

/-- Composite-glyph component flag: the arguments are words. -/
def GlyfFlagArg1And2AreWords : Nat := 1

/-- Composite-glyph component flag: a simple scale follows. -/
def GlyfFlagWeHaveAScale : Nat := 8

/-- Composite-glyph component flag: at least one additional component
follows. -/
def GlyfFlagMoreComponents : Nat := 32

/-- Composite-glyph component flag: separate x and y scales follow. -/
def GlyfFlagWeHaveAnXAndYScale : Nat := 64

/-- Composite-glyph component flag: a 2-by-2 transform follows. -/
def GlyfFlagWeHaveATwoByTwo : Nat := 128

/-- `glyfFlag.Test`: `glyfFlag(flags)&flag == flag`. -/
def glyfFlagTest (flag flags : Nat) : Bool :=
  flags &&& flag == flag

/-- The component-record walk shared by the closure pass and the patching
pass of `genGlyfAndLoca`: starting at the first component record, read
`flags` and `componentGid`, then advance past the argument bytes and the
optional scale/2-by-2 trailer while the more-components flag is set.
Returns the component glyph IDs in record order; `none` when the fuel is
exhausted (the Go loop is bounded by the finite source buffer instead). -/
def compWalk (buf : Nat → Nat) : Nat → Nat → Option (List Nat)
  | _, 0 => none
  | pos, cfuel + 1 =>
    let flags := readU16 buf pos
    let componentGid := readU16 buf (pos + 2)
    if glyfFlagTest GlyfFlagMoreComponents flags then
      let pos2 := pos + 4 + 2 + (if glyfFlagTest GlyfFlagArg1And2AreWords flags then 2 else 0)
      let pos3 := pos2 +
        (if glyfFlagTest GlyfFlagWeHaveAScale flags then 2
         else if glyfFlagTest GlyfFlagWeHaveAnXAndYScale flags then 4
         else if glyfFlagTest GlyfFlagWeHaveATwoByTwo flags then 8
         else 0)
      match compWalk buf pos3 cfuel with
      | none => none
      | some rest => some (componentGid :: rest)
    else some [componentGid]

/-- Component list of the glyf record at `ptr`: a non-negative contour count
(`i16` read, i.e. `u16` below `0x8000`) is a simple glyph with no
components; otherwise the record walk starts after the 10-byte header. -/
def glyfComponents (buf : Nat → Nat) (ptr : Nat) (cfuel : Nat) : Option (List Nat) :=
  if readU16 buf ptr < 32768 then some []
  else compWalk buf (ptr + 10) cfuel

/-- `Reader.glyfLocation`: offset and length of a glyph's data from the
`loca` table (format 0: halved `u16` offsets; format 1: `u32` offsets).
The length subtraction is `u32` arithmetic, hence modular. -/
def glyfLocation (buf : Nat → Nat) (locaPtr : Nat) (locaFormat : Nat) (gid : Nat) : Nat × Nat :=
  if locaFormat = 0 then
    let offset := readU16 buf (locaPtr + gid * 2) * 2
    (offset, (readU16 buf (locaPtr + gid * 2 + 2) * 2 + 4294967296 - offset) % 4294967296)
  else
    let offset := readU32 buf (locaPtr + gid * 4)
    (offset, (readU32 buf (locaPtr + gid * 4 + 4) + 4294967296 - offset) % 4294967296)

/-- Components of glyph `gid`, located through `loca` as in the closure
loop of `genGlyfAndLoca` (`ptr := Tables.Glyf.Ptr + offset`). -/
def compOf (buf : Nat → Nat) (locaPtr locaFormat glyfPtr cfuel : Nat) (gid : Nat) :
    Option (List Nat) :=
  glyfComponents buf (glyfPtr + (glyfLocation buf locaPtr locaFormat gid).1) cfuel

/-- The per-glyph inner loop of the closure pass: every component glyph ID
not yet seen is added to the seen set and pushed on the work stack. -/
def addComponents (seen : List Nat) (stack : List Nat) : List Nat → List Nat × List Nat
  | [] => (seen, stack)
  | c :: rest =>
    if c ∈ seen then addComponents seen stack rest
    else addComponents (bsInsert c seen) (stack ++ [c]) rest

/-- The work-queue loop of `genGlyfAndLoca`: pop the front glyph ID, append
its glyf entry to the output list, and push its unseen composite components.
Returns the emitted glyph-ID list and the final seen set; `none` models a
failed component read or exhausted fuel. -/
def closureLoop (comp : Nat → Option (List Nat)) :
    Nat → List Nat → List Nat → List Nat → Option (List Nat × List Nat)
  | _, [], seen, glyfs => some (glyfs, seen)
  | 0, _ :: _, _, _ => none
  | fuel + 1, gid :: stack, seen, glyfs =>
    match comp gid with
    | none => none
    | some cs =>
      let ss := addComponents seen stack cs
      closureLoop comp fuel ss.2 ss.1 (glyfs ++ [gid])

/-- The glyph-collection part of `genGlyfAndLoca`: seed the seen set with
glyph 0 and the glyph of every requested codepoint, then run the work-queue
closure.  The final seen set, iterated ascending, is `g.glyphIds`. -/
def genGlyfAndLoca (buf : Nat → Nat) (locaPtr glyfPtr : Nat) (font : Font)
    (chars : List Nat) (fuel cfuel : Nat) : Option (List Nat × List Nat) :=
  match seedGids font chars (bsInsert 0 []) with
  | none => none
  | some seeds =>
    closureLoop (compOf buf locaPtr font.locaFormat glyfPtr cfuel) fuel seeds seeds []

/-- The old-to-new glyph-ID remap array:
`gidRemap = make([]u16, glyphIds[last]+1)` followed by
`gidRemap[gidOld] = u16(gidNew)` for every `(gidNew, gidOld)` in the
ascending subset list. -/
def gidRemapArr (glyphIds : List Nat) : List Nat :=
  glyphIds.enum.foldl (fun arr p => arr.set p.2 (p.1 % 65536))
    (List.replicate (glyphIds.getLastD 0 + 1) 0)

/-- Transitive reachability through composite-glyph component references,
starting from the seed set. -/
inductive Reach (comp : Nat → Option (List Nat)) (seeds : List Nat) : Nat → Prop
  | seed (g : Nat) : g ∈ seeds → Reach comp seeds g
  | step (g c : Nat) (cs : List Nat) :
      Reach comp seeds g → comp g = some cs → c ∈ cs → Reach comp seeds c

/-- The segment-building loop of `genCmap`.  Segments are `(start, end,
delta)` triples of `u16` values, kept by the Go code in the fixed
`[512]u16` arrays `endCodes`/`startCodes`/`deltas` indexed by `seg` — the
completed-segment count, here the accumulator's length — so any write at
index 512 panics (`none`).  Every iteration reads
`gidNew := g.gidRemap[gidOld]`, which panics when `gidOld` is not within
the remap array.  A gap in the (truncated) codepoint sequence closes the
current segment (`endCodes[seg]`) and starts a new one at `seg + 1` whose
delta is `u16(gidNew) - start`.  After the loop the open segment is closed
at the last codepoint and the sentinel segment `[0xFFFF, 0xFFFF]` with
delta 1 is written one index later. -/
def cmapLoop (font : Font) (remap : List Nat) :
    List Nat → List (Nat × Nat × Nat) → Nat → Nat → Nat → Option (List (Nat × Nat × Nat))
  | [], segs, start, delta, charPrev =>
    if segs.length + 1 < 512 then
      some (segs ++ [(start, charPrev, delta), (65535, 65535, 1)])
    else none
  | c :: rest, segs, start, delta, charPrev =>
    let char := c % 65536
    let gidOld := font.gids char
    if gidOld < remap.length then
      let gidNew := remap.getD gidOld 0
      if (char + 65536 - charPrev) % 65536 > 1 then
        if segs.length + 1 < 512 then
          cmapLoop font remap rest (segs ++ [(start, charPrev, delta)]) char
            ((gidNew % 65536 + 65536 - char) % 65536) char
        else none
      else
        cmapLoop font remap rest segs start delta char
    else none

/-- The format-4 segment construction of `genCmap`.  The function panics
(`none`) unless the subset's first glyph is glyph 0, and panics on an empty
requested-codepoint list (`g.chars[0]` on an empty slice); otherwise the
first segment starts at the first requested codepoint with the hard-coded
delta `u16(1 - start)` and the segment loop runs. -/
def genCmap (font : Font) (glyphIds remap chars : List Nat) :
    Option (List (Nat × Nat × Nat)) :=
  match glyphIds.head? with
  | some 0 =>
    match chars with
    | [] => none
    | c0 :: _ =>
      let start0 := c0 % 65536
      cmapLoop font remap chars [] start0 ((1 + 65536 - start0) % 65536) start0
  | _ => none

/-- First loop of `genHmtx`: copy `(width, leftSideBearing)` long metrics in
new-ID order, remembering the running index, glyph and width, and break
right after the first glyph whose old ID reaches the source font's
`numberOfHMetrics`.  Returns the written entries, the Go loop variables
`i`, `gid`, `lastWidth` at exit, and the glyph IDs left unprocessed. -/
def hmtxFirst (buf : Nat → Nat) (hmtxPtr metricCountOrig : Nat) :
    List Nat → Nat → Nat → Nat → Nat → List (Nat × Nat) →
    List (Nat × Nat) × Nat × Nat × Nat × List Nat
  | [], _, iLast, gidLast, lwLast, acc => (acc, iLast, gidLast, lwLast, [])
  | g :: rest, idx, _, _, _, acc =>
    let lw := readU16 buf (hmtxPtr + g * 4)
    let lsb := readU16 buf (hmtxPtr + g * 4 + 2)
    if metricCountOrig ≤ g then (acc ++ [(lw, lsb)], idx, g, lw, rest)
    else hmtxFirst buf hmtxPtr metricCountOrig rest (idx + 1) idx g lw (acc ++ [(lw, lsb)])

/-- Second loop of `genHmtx`: for the glyphs after the break, reuse the last
written width and read the side bearing from the trailing bearings array at
`ptrBearingsOrig + (gid - lastWidthGid)*2`.  Returns the entries and the Go
loop variable `i` at exit (unchanged when the loop body never runs). -/
def hmtxSecond (buf : Nat → Nat) (ptrBearings gidLW lw : Nat) :
    List Nat → Nat → Nat → List (Nat × Nat) → List (Nat × Nat) × Nat
  | [], _, iLast, acc => (acc, iLast)
  | g :: rest, idx, _, acc =>
    hmtxSecond buf ptrBearings gidLW lw rest (idx + 1) idx
      (acc ++ [(lw, readU16 buf (ptrBearings + (g - gidLW) * 2))])

/-- `genHmtx`: the two copy loops and the returned metric count
`metricCount = u16(i+1)` after the first loop plus `u16(i+1)` after the
second, with the Go loop variable `i` shared between the loops. -/
def genHmtx (buf : Nat → Nat) (hmtxPtr metricCountOrig : Nat) (glyphIds : List Nat) :
    List (Nat × Nat) × Nat :=
  let r1 := hmtxFirst buf hmtxPtr metricCountOrig glyphIds 0 0 0 0 []
  let metricCount := (r1.2.1 + 1) % 65536
  let ptrBearings := hmtxPtr + metricCountOrig * 4
  let r2 := hmtxSecond buf ptrBearings r1.2.2.1 r1.2.2.2.1 r1.2.2.2.2 0 r1.2.1 r1.1
  (r2.1, (metricCount + r2.2 + 1) % 65536)

/-- A table-directory entry (Go struct `Table`): unpadded length and offset
of the table in its buffer. -/
structure Table where
  len : Nat
  ptr : Nat

/-- `Table.LenPadded`: `(t.Len + 3) &^ 3`, the length rounded up to a
multiple of 4. -/
def Table.lenPadded (t : Table) : Nat :=
  (t.len + 3) / 4 * 4

/-- The checksum loop of `genIndexEntry`: `(Len+3)/4` big-endian `u32`
reads summed modulo `2^32`, with the read pointer starting at
`ptrChecksum := 0` — the beginning of the output buffer. -/
def genIndexEntry (buf : Nat → Nat) (table : Table) : Nat :=
  (List.range ((table.len + 3) / 4)).foldl
    (fun cs i => (cs + readU32 buf (4 * i)) % 4294967296) 0

/-- The checksum the spec prescribes for a directory entry: the big-endian
`u32` sum modulo `2^32` over the table's own padded bytes, starting at the
table's offset.  Stated from the spec's words for comparison with
`genIndexEntry`. -/
def specTableChecksum (buf : Nat → Nat) (table : Table) : Nat :=
  (List.range ((table.len + 3) / 4)).foldl
    (fun cs i => (cs + readU32 buf (table.ptr + 4 * i)) % 4294967296) 0

/-- OS/2 `fsType` bit the parser treats as "licensed (protected)":
`0b10`, bit 1. -/
def flagLicensed : Nat := 2

/-- OS/2 `fsType` bit the parser treats as "bitmap embedding only":
`0b100000000`, i.e. bit 8 — which per the table in the Go comment is the
"no subsetting" bit; bitmap-embedding-only is bit 9. -/
def flagEmbedBitmapOnly : Nat := 256

/-- The embedding-restriction rejection test of `parseOs2`:
`fsType&(flagLicensed|flagEmbedBitmapOnly) != 0`. -/
def parseOs2Rejects (fsType : Nat) : Bool :=
  fsType &&& (flagLicensed ||| flagEmbedBitmapOnly) != 0

/-- `slices.SortFunc(glyfs, ...)`: the emitted glyf entries ordered by
remapped (new) glyph ID. -/
def sortGlyfsByRemap (remap : List Nat) (glyfs : List Nat) : List Nat :=
  glyfs.mergeSort (fun a b => remap.getD a 0 ≤ remap.getD b 0)

/-- The outputs of one `Generate` call that the claims are about. -/
structure GenOut where
  glyphIds : List Nat
  gidRemap : List Nat
  segs : List (Nat × Nat × Nat)
  hmtx : List (Nat × Nat)
  metricCount : Nat

/-- The `Generate` pipeline: glyph closure and renumbering, cmap segment
construction, hmtx regeneration.  The font model is read-only state; the
embedding threads it through explicitly and returns it next to the outputs.
The remaining stages of `Generator.generate` (verbatim table copies, post,
head/hhea/maxp patching, directory emission) read only the reader/writer
buffers, never the font model. -/
def generate (buf : Nat → Nat) (locaPtr glyfPtr hmtxPtr : Nat) (font : Font)
    (chars : List Nat) (fuel cfuel : Nat) : Option (GenOut × Font) :=
  match genGlyfAndLoca buf locaPtr glyfPtr font chars fuel cfuel with
  | none => none
  | some (_, seen) =>
    let glyphIds := seen
    let remap := gidRemapArr glyphIds
    match genCmap font glyphIds remap chars with
    | none => none
    | some segs =>
      let hm := genHmtx buf hmtxPtr font.metricCount glyphIds
      some (⟨glyphIds, remap, segs, hm.1, hm.2⟩, font)

/-- Concrete byte buffer for the witness font: `loca` (format 0) at offset
0 with entries `[0, 5, 15, 20]` (glyph byte offsets 0, 10, 30, 40), `glyf`
at offset 100 with glyph 0 and glyph 2 simple and glyph 1 a composite whose
single component record (flags 0) references glyph 2. -/
def wBuf : Nat → Nat := fun i =>
  if i = 3 then 5
  else if i = 5 then 15
  else if i = 7 then 20
  else if i = 110 then 255
  else if i = 111 then 255
  else if i = 123 then 2
  else 0

/-- Witness font: codepoint `0x41` maps to glyph 1, everything else to
glyph 0. -/
def wFont : Font where
  gids := fun c => if c = 65 then 1 else 0
  widths := fun _ => 0
  boundsMin := (0, 0)
  boundsMax := (0, 0)
  ascent := 0
  capHeight := 0
  descent := 0
  flags := 0
  italicAngle := 0
  scale := 1
  strikeoutPos := 0
  strikeoutSize := 0
  underlinePos := 0
  underlineSize := 0
  glyphCount := 3
  metricCount := 3
  weightClass := 400
  locaFormat := 0

/-- All-zero byte buffer: every glyph is simple (contour count 0). -/
def zBuf : Nat → Nat := fun _ => 0

/-- Font for the cmap first-segment counterexample: codepoint `0x41` maps
to glyph 5, codepoint `0x42` to glyph 2; ascending codepoints whose glyph
IDs are not ascending. -/
def cFont : Font where
  gids := fun c => if c = 65 then 5 else if c = 66 then 2 else 0
  widths := fun _ => 0
  boundsMin := (0, 0)
  boundsMax := (0, 0)
  ascent := 0
  capHeight := 0
  descent := 0
  flags := 0
  italicAngle := 0
  scale := 1
  strikeoutPos := 0
  strikeoutSize := 0
  underlinePos := 0
  underlineSize := 0
  glyphCount := 6
  metricCount := 6
  weightClass := 400
  locaFormat := 0

/-- Source `hmtx` byte buffer for the width-truncation claims:
`numberOfHMetrics = 2` long metrics `(100, 10)` and `(200, 20)` at offsets
0 and 4, followed by the trailing side-bearing array `30, 40, 50, 60` at
offsets 8..15. -/
def hBuf : Nat → Nat := fun i =>
  if i = 1 then 100
  else if i = 3 then 10
  else if i = 5 then 200
  else if i = 7 then 20
  else if i = 9 then 30
  else if i = 11 then 40
  else if i = 13 then 50
  else if i = 15 then 60
  else 0

/-- Output buffer for the directory-checksum counterexample: big-endian
`u32` value 1 at offset 0 and value 2 at offset 4. -/
def iBuf : Nat → Nat := fun i =>
  if i = 3 then 1
  else if i = 7 then 2
  else 0

theorem mem_bsInsert (x a : Nat) (l : List Nat) : a ∈ bsInsert x l ↔ a = x ∨ a ∈ l := by
  induction l with
  | nil => simp [bsInsert]
  | cons y rest ih =>
    simp only [bsInsert]
    by_cases h1 : x < y
    · rw [if_pos h1]
      simp [List.mem_cons]
    · rw [if_neg h1]
      by_cases h2 : x = y
      · rw [if_pos h2]
        subst h2
        simp [List.mem_cons]
      · rw [if_neg h2]
        simp [List.mem_cons, ih]
        tauto

theorem pairwise_bsInsert (x : Nat) (l : List Nat) (h : l.Pairwise (· < ·)) :
    (bsInsert x l).Pairwise (· < ·) := by
  induction l with
  | nil => simp [bsInsert]
  | cons y rest ih =>
    rw [List.pairwise_cons] at h
    simp only [bsInsert]
    by_cases h1 : x < y
    · rw [if_pos h1]
      refine List.pairwise_cons.2 ⟨?_, List.pairwise_cons.2 ⟨h.1, h.2⟩⟩
      intro b hb
      rcases List.mem_cons.1 hb with rfl | hb
      · exact h1
      · exact h1.trans (h.1 b hb)
    · rw [if_neg h1]
      by_cases h2 : x = y
      · rw [if_pos h2]
        exact List.pairwise_cons.2 ⟨h.1, h.2⟩
      · rw [if_neg h2]
        refine List.pairwise_cons.2 ⟨?_, ih h.2⟩
        intro b hb
        rcases (mem_bsInsert x b rest).1 hb with rfl | hb
        · omega
        · exact h.1 b hb

theorem glyphId_some {font : Font} {c g : Nat} (h : font.glyphId c = some g) :
    g = font.gids c ∧ c < 65536 := by
  unfold Font.glyphId at h
  split at h
  · rename_i hc
    exact ⟨(Option.some.inj h).symm, by omega⟩
  · cases h

theorem seedGids_sub (font : Font) (chars : List Nat) :
    ∀ (acc s : List Nat), seedGids font chars acc = some s → ∀ x ∈ acc, x ∈ s := by
  induction chars with
  | nil =>
    intro acc s h x hx
    cases h
    exact hx
  | cons c rest ih =>
    intro acc s h x hx
    simp only [seedGids] at h
    split at h
    · cases h
    · rename_i gid hgid
      exact ih _ _ h x ((mem_bsInsert gid x acc).2 (Or.inr hx))

theorem seedGids_mem_char (font : Font) (chars : List Nat) :
    ∀ (acc s : List Nat), seedGids font chars acc = some s →
      ∀ c ∈ chars, ∀ g, font.glyphId c = some g → g ∈ s := by
  induction chars with
  | nil =>
    intro acc s _ c hc
    cases hc
  | cons c0 rest ih =>
    intro acc s h c hc g hgl
    simp only [seedGids] at h
    split at h
    · cases h
    · rename_i gid hgid
      rcases List.mem_cons.1 hc with rfl | hc
      · rw [hgl] at hgid
        injection hgid with hgid
        subst hgid
        exact seedGids_sub font rest _ _ h g ((mem_bsInsert g g acc).2 (Or.inl rfl))
      · exact ih _ _ h c hc g hgl

theorem seedGids_src (font : Font) (chars : List Nat) :
    ∀ (acc s : List Nat), seedGids font chars acc = some s →
      ∀ x ∈ s, x ∈ acc ∨ ∃ c ∈ chars, font.glyphId c = some x := by
  induction chars with
  | nil =>
    intro acc s h x hx
    cases h
    exact Or.inl hx
  | cons c0 rest ih =>
    intro acc s h x hx
    simp only [seedGids] at h
    split at h
    · cases h
    · rename_i gid hgid
      rcases ih _ _ h x hx with hacc | ⟨c, hc, hcg⟩
      · rcases (mem_bsInsert gid x acc).1 hacc with rfl | hacc
        · exact Or.inr ⟨c0, List.mem_cons_self c0 rest, hgid⟩
        · exact Or.inl hacc
      · exact Or.inr ⟨c, List.mem_cons_of_mem c0 hc, hcg⟩

theorem seedGids_pairwise (font : Font) (chars : List Nat) :
    ∀ (acc s : List Nat), acc.Pairwise (· < ·) → seedGids font chars acc = some s →
      s.Pairwise (· < ·) := by
  induction chars with
  | nil =>
    intro acc s hacc h
    cases h
    exact hacc
  | cons c0 rest ih =>
    intro acc s hacc h
    simp only [seedGids] at h
    split at h
    · cases h
    · rename_i gid hgid
      exact ih _ _ (pairwise_bsInsert gid acc hacc) h

theorem readU16_lt (buf : Nat → Nat) (pos : Nat) : readU16 buf pos < 65536 := by
  unfold readU16
  have h1 : buf pos % 256 < 256 := Nat.mod_lt _ (by omega)
  have h2 : buf (pos + 1) % 256 < 256 := Nat.mod_lt _ (by omega)
  omega

theorem compWalk_lt (buf : Nat → Nat) :
    ∀ (cfuel pos : Nat) (cs : List Nat), compWalk buf pos cfuel = some cs →
      ∀ c ∈ cs, c < 65536 := by
  intro cfuel
  induction cfuel with
  | zero =>
    intro pos cs h
    cases h
  | succ n ih =>
    intro pos cs h c hc
    simp only [compWalk] at h
    split at h
    · split at h
      · cases h
      · rename_i rest hrest
        injection h with h
        subst h
        rcases List.mem_cons.1 hc with rfl | hc
        · exact readU16_lt buf (pos + 2)
        · exact ih _ _ hrest c hc
    · injection h with h
      subst h
      rcases List.mem_cons.1 hc with rfl | hc
      · exact readU16_lt buf (pos + 2)
      · cases hc

theorem compOf_lt (buf : Nat → Nat) (locaPtr locaFormat glyfPtr cfuel : Nat) (gid : Nat)
    (cs : List Nat) (h : compOf buf locaPtr locaFormat glyfPtr cfuel gid = some cs) :
    ∀ c ∈ cs, c < 65536 := by
  unfold compOf glyfComponents at h
  split at h
  · injection h with h
    subst h
    intro c hc
    cases hc
  · exact compWalk_lt buf cfuel _ cs h

theorem addComponents_seen_mono (x : Nat) :
    ∀ (cs seen stack : List Nat), x ∈ seen → x ∈ (addComponents seen stack cs).1 := by
  intro cs
  induction cs with
  | nil =>
    intro seen stack hx
    exact hx
  | cons c rest ih =>
    intro seen stack hx
    simp only [addComponents]
    split
    · exact ih _ _ hx
    · exact ih _ _ ((mem_bsInsert c x seen).2 (Or.inr hx))

theorem addComponents_stack_mono (x : Nat) :
    ∀ (cs seen stack : List Nat), x ∈ stack → x ∈ (addComponents seen stack cs).2 := by
  intro cs
  induction cs with
  | nil =>
    intro seen stack hx
    exact hx
  | cons c rest ih =>
    intro seen stack hx
    simp only [addComponents]
    split
    · exact ih _ _ hx
    · exact ih _ _ (List.mem_append_left _ hx)

theorem addComponents_comps_seen (x : Nat) :
    ∀ (cs seen stack : List Nat), x ∈ cs → x ∈ (addComponents seen stack cs).1 := by
  intro cs
  induction cs with
  | nil =>
    intro seen stack hx
    cases hx
  | cons c rest ih =>
    intro seen stack hx
    simp only [addComponents]
    rcases List.mem_cons.1 hx with rfl | hx
    · split
      · rename_i hin
        exact addComponents_seen_mono x rest _ _ hin
      · exact addComponents_seen_mono x rest _ _ ((mem_bsInsert x x seen).2 (Or.inl rfl))
    · split
      · exact ih _ _ hx
      · exact ih _ _ hx

theorem addComponents_stack_src (x : Nat) :
    ∀ (cs seen stack : List Nat), x ∈ (addComponents seen stack cs).2 →
      x ∈ stack ∨ x ∈ cs := by
  intro cs
  induction cs with
  | nil =>
    intro seen stack hx
    exact Or.inl hx
  | cons c rest ih =>
    intro seen stack hx
    simp only [addComponents] at hx
    split at hx
    · rcases ih _ _ hx with h | h
      · exact Or.inl h
      · exact Or.inr (List.mem_cons_of_mem c h)
    · rcases ih _ _ hx with h | h
      · rcases List.mem_append.1 h with h | h
        · exact Or.inl h
        · rcases List.mem_singleton.1 h with rfl
          exact Or.inr (List.mem_cons_self x rest)
      · exact Or.inr (List.mem_cons_of_mem c h)

theorem addComponents_seen_src (x : Nat) :
    ∀ (cs seen stack : List Nat), x ∈ (addComponents seen stack cs).1 →
      x ∈ seen ∨ x ∈ cs := by
  intro cs
  induction cs with
  | nil =>
    intro seen stack hx
    exact Or.inl hx
  | cons c rest ih =>
    intro seen stack hx
    simp only [addComponents] at hx
    split at hx
    · rcases ih _ _ hx with h | h
      · exact Or.inl h
      · exact Or.inr (List.mem_cons_of_mem c h)
    · rcases ih _ _ hx with h | h
      · rcases (mem_bsInsert c x seen).1 h with rfl | h
        · exact Or.inr (List.mem_cons_self x rest)
        · exact Or.inl h
      · exact Or.inr (List.mem_cons_of_mem c h)

theorem addComponents_seen_cover (x : Nat) :
    ∀ (cs seen stack : List Nat), x ∈ (addComponents seen stack cs).1 →
      x ∈ seen ∨ x ∈ (addComponents seen stack cs).2 := by
  intro cs
  induction cs with
  | nil =>
    intro seen stack hx
    exact Or.inl hx
  | cons c rest ih =>
    intro seen stack hx
    simp only [addComponents]
    simp only [addComponents] at hx
    split at hx
    · rename_i hin
      rw [if_pos hin]
      exact ih _ _ hx
    · rename_i hnin
      rw [if_neg hnin]
      rcases ih _ _ hx with h | h
      · rcases (mem_bsInsert c x seen).1 h with rfl | h
        · exact Or.inr (addComponents_stack_mono x rest _ _
            (List.mem_append_right _ (List.mem_singleton.2 rfl)))
        · exact Or.inl h
      · exact Or.inr h

theorem addComponents_pairwise :
    ∀ (cs seen stack : List Nat), seen.Pairwise (· < ·) →
      (addComponents seen stack cs).1.Pairwise (· < ·) := by
  intro cs
  induction cs with
  | nil =>
    intro seen stack hp
    exact hp
  | cons c rest ih =>
    intro seen stack hp
    simp only [addComponents]
    split
    · exact ih _ _ hp
    · exact ih _ _ (pairwise_bsInsert c seen hp)

theorem closureLoop_spec (comp : Nat → Option (List Nat))
    (hcomp : ∀ g cs, comp g = some cs → ∀ c ∈ cs, c < 65536) :
    ∀ (fuel : Nat) (stack seen glyfs glyfs' seen' : List Nat),
      closureLoop comp fuel stack seen glyfs = some (glyfs', seen') →
      (∀ x ∈ stack, x ∈ seen) →
      (∀ x ∈ seen, x ∈ glyfs ∨ x ∈ stack) →
      (∀ g ∈ glyfs, ∀ cs, comp g = some cs → ∀ c ∈ cs, c ∈ seen) →
      (∀ g ∈ glyfs, g ∈ seen) →
      seen.Pairwise (· < ·) →
      (∀ x ∈ seen, x < 65536) →
      (∀ x ∈ seen, x ∈ seen') ∧ (∀ x ∈ glyfs, x ∈ glyfs') ∧
        (∀ x ∈ seen', x ∈ glyfs') ∧ (∀ g ∈ glyfs', g ∈ seen') ∧
        (∀ g ∈ glyfs', ∀ cs, comp g = some cs → ∀ c ∈ cs, c ∈ seen') ∧
        seen'.Pairwise (· < ·) ∧ (∀ x ∈ seen', x < 65536) := by
  intro fuel
  induction fuel with
  | zero =>
    intro stack seen glyfs glyfs' seen' h hstack hcover hclosed hgs hpw hlt
    cases stack with
    | nil =>
      simp only [closureLoop] at h
      injection h with h
      injection h with h1 h2
      subst h1
      subst h2
      refine ⟨fun x hx => hx, fun x hx => hx, ?_, hgs, hclosed, hpw, hlt⟩
      intro x hx
      rcases hcover x hx with hg | hs
      · exact hg
      · cases hs
    | cons a rest =>
      simp only [closureLoop] at h
      exact Option.noConfusion h
  | succ n ih =>
    intro stack seen glyfs glyfs' seen' h hstack hcover hclosed hgs hpw hlt
    cases stack with
    | nil =>
      simp only [closureLoop] at h
      injection h with h
      injection h with h1 h2
      subst h1
      subst h2
      refine ⟨fun x hx => hx, fun x hx => hx, ?_, hgs, hclosed, hpw, hlt⟩
      intro x hx
      rcases hcover x hx with hg | hs
      · exact hg
      · cases hs
    | cons gid stack =>
      simp only [closureLoop] at h
      split at h
      · cases h
      · rename_i cs hcs
        have hgidseen : gid ∈ seen := hstack gid (List.mem_cons_self gid stack)
        have hstack' : ∀ x ∈ (addComponents seen stack cs).2, x ∈ (addComponents seen stack cs).1 := by
          intro x hx
          rcases addComponents_stack_src x cs seen stack hx with hx | hx
          · exact addComponents_seen_mono x cs seen stack
              (hstack x (List.mem_cons_of_mem gid hx))
          · exact addComponents_comps_seen x cs seen stack hx
        have hcover' : ∀ x ∈ (addComponents seen stack cs).1,
            x ∈ glyfs ++ [gid] ∨ x ∈ (addComponents seen stack cs).2 := by
          intro x hx
          rcases addComponents_seen_cover x cs seen stack hx with hx' | hx'
          · rcases hcover x hx' with hg | hs
            · exact Or.inl (List.mem_append_left _ hg)
            · rcases List.mem_cons.1 hs with rfl | hs
              · exact Or.inl (List.mem_append_right _ (List.mem_singleton.2 rfl))
              · exact Or.inr (addComponents_stack_mono x cs seen stack hs)
          · exact Or.inr hx'
        have hclosed' : ∀ g ∈ glyfs ++ [gid], ∀ cs2, comp g = some cs2 →
            ∀ c ∈ cs2, c ∈ (addComponents seen stack cs).1 := by
          intro g hg cs2 hcs2 c hc
          rcases List.mem_append.1 hg with hg | hg
          · exact addComponents_seen_mono c cs seen stack (hclosed g hg cs2 hcs2 c hc)
          · rcases List.mem_singleton.1 hg with rfl
            rw [hcs] at hcs2
            injection hcs2 with hcs2
            subst hcs2
            exact addComponents_comps_seen c cs seen stack hc
        have hgs' : ∀ g ∈ glyfs ++ [gid], g ∈ (addComponents seen stack cs).1 := by
          intro g hg
          rcases List.mem_append.1 hg with hg | hg
          · exact addComponents_seen_mono g cs seen stack (hgs g hg)
          · rcases List.mem_singleton.1 hg with rfl
            exact addComponents_seen_mono g cs seen stack hgidseen
        have hpw' : (addComponents seen stack cs).1.Pairwise (· < ·) :=
          addComponents_pairwise cs seen stack hpw
        have hlt' : ∀ x ∈ (addComponents seen stack cs).1, x < 65536 := by
          intro x hx
          rcases addComponents_seen_src x cs seen stack hx with hx | hx
          · exact hlt x hx
          · exact hcomp gid cs hcs x hx
        obtain ⟨m1, m2, m3, m4, m5, m6, m7⟩ :=
          ih _ _ _ _ _ h hstack' hcover' hclosed' hgs' hpw' hlt'
        refine ⟨?_, ?_, m3, m4, m5, m6, m7⟩
        · intro x hx
          exact m1 x (addComponents_seen_mono x cs seen stack hx)
        · intro x hx
          exact m2 x (List.mem_append_left _ hx)

theorem foldl_set_length (ps : List (Nat × Nat)) :
    ∀ arr : List Nat, (ps.foldl (fun a p => a.set p.2 (p.1 % 65536)) arr).length = arr.length := by
  induction ps with
  | nil => intro arr; rfl
  | cons p rest ih =>
    intro arr
    rw [List.foldl_cons, ih, List.length_set]

theorem foldl_set_get_notin (ps : List (Nat × Nat)) :
    ∀ (arr : List Nat) (x : Nat), x ∉ ps.map Prod.snd →
      (ps.foldl (fun a p => a.set p.2 (p.1 % 65536)) arr)[x]? = arr[x]? := by
  induction ps with
  | nil => intro arr x _; rfl
  | cons p rest ih =>
    intro arr x hx
    rw [List.map_cons] at hx
    have h1 : x ≠ p.2 := by
      intro e
      exact hx (by simp [e])
    have h2 : x ∉ rest.map Prod.snd := fun hw => hx (List.mem_cons_of_mem _ hw)
    rw [List.foldl_cons, ih _ _ h2, List.getElem?_set_ne (Ne.symm h1)]

theorem foldl_set_get_mem (ps : List (Nat × Nat)) :
    ∀ (arr : List Nat) (i x : Nat), (ps.map Prod.snd).Nodup → (i, x) ∈ ps → x < arr.length →
      (ps.foldl (fun a p => a.set p.2 (p.1 % 65536)) arr)[x]? = some (i % 65536) := by
  induction ps with
  | nil =>
    intro arr i x _ h
    cases h
  | cons p rest ih =>
    intro arr i x hnd hmem hlt
    rw [List.map_cons, List.nodup_cons] at hnd
    rw [List.foldl_cons]
    rcases List.mem_cons.1 hmem with h | hmem
    · subst h
      rw [foldl_set_get_notin rest _ x hnd.1]
      exact List.getElem?_set_self (by simpa using hlt)
    · exact ih _ i x hnd.2 hmem (by simpa using hlt)

theorem sortedLast :
    ∀ (l : List Nat) (d : Nat), l.Pairwise (· < ·) → ∀ x ∈ l, x ≤ l.getLastD d := by
  intro l
  induction l with
  | nil =>
    intro d _ x hx
    cases hx
  | cons a t ih =>
    intro d hp x hx
    rw [List.pairwise_cons] at hp
    rw [List.getLastD_cons]
    rcases List.mem_cons.1 hx with rfl | hx
    · cases t with
      | nil => simp [List.getLastD]
      | cons b t2 =>
        have hb : b ≤ (b :: t2).getLastD x := ih x hp.2 b (List.mem_cons_self b t2)
        have hxb : x < b := hp.1 b (List.mem_cons_self b t2)
        omega
    · exact ih a hp.2 x hx

theorem getLastD_mem (l : List Nat) (h : l ≠ []) : l.getLastD 0 ∈ l := by
  cases l with
  | nil => exact absurd rfl h
  | cons a t =>
    rw [List.getLastD_cons]
    exact List.getLastD_mem_cons t a

theorem gidRemapArr_length (l : List Nat) : (gidRemapArr l).length = l.getLastD 0 + 1 := by
  unfold gidRemapArr
  rw [foldl_set_length, List.length_replicate]

theorem gidRemapArr_get (l : List Nat) (hp : l.Pairwise (· < ·)) {x : Nat} (hx : x ∈ l) :
    (gidRemapArr l)[x]? = some (l.indexOf x % 65536) := by
  have hnd : l.Nodup := hp.imp Nat.ne_of_lt
  have hidx : l.indexOf x < l.length := List.indexOf_lt_length.2 hx
  unfold gidRemapArr
  apply foldl_set_get_mem
  · rw [List.enum_map_snd]
    exact hnd
  · have hlen : l.indexOf x < l.enum.length := by
      rw [List.enum_length]
      exact hidx
    have he : l.enum[l.indexOf x] = (l.indexOf x, x) := by
      rw [List.getElem_enum]
      exact congrArg _ (List.getElem_indexOf hidx)
    rw [← he]
    exact List.getElem_mem hlen
  · rw [List.length_replicate]
    have := sortedLast l 0 hp x hx
    omega

theorem gidRemapArr_getD (l : List Nat) (hp : l.Pairwise (· < ·)) {x : Nat} (hx : x ∈ l)
    (hlen : l.length ≤ 65536) : (gidRemapArr l).getD x 0 = l.indexOf x := by
  rw [List.getD_eq_getElem?_getD, gidRemapArr_get l hp hx]
  have hidx : l.indexOf x < l.length := List.indexOf_lt_length.2 hx
  have : l.indexOf x % 65536 = l.indexOf x := Nat.mod_eq_of_lt (by omega)
  rw [this]
  rfl

theorem length_le_of_pairwise_lt (l : List Nat) (hp : l.Pairwise (· < ·))
    (hb : ∀ x ∈ l, x < 65536) : l.length ≤ 65536 := by
  have hnd : l.Nodup := hp.imp Nat.ne_of_lt
  have h1 : l.toFinset ⊆ Finset.range 65536 := by
    intro x hx
    rw [Finset.mem_range]
    exact hb x (List.mem_toFinset.1 hx)
  have h2 := Finset.card_le_card h1
  rw [Finset.card_range, List.toFinset_card_of_nodup hnd] at h2
  exact h2

theorem indexOf_lt_of_lt :
    ∀ (l : List Nat), l.Pairwise (· < ·) →
      ∀ a b, a ∈ l → b ∈ l → a < b → l.indexOf a < l.indexOf b := by
  intro l
  induction l with
  | nil =>
    intro _ a b ha
    cases ha
  | cons y t ih =>
    intro hp a b ha hb hab
    rw [List.pairwise_cons] at hp
    rcases List.mem_cons.1 ha with rfl | ha
    · have hbt : b ∈ t := by
        rcases List.mem_cons.1 hb with rfl | h
        · omega
        · exact h
      have hne : (a == b) = false := by
        simp only [beq_eq_false_iff_ne, ne_eq]
        omega
      rw [List.indexOf_cons, List.indexOf_cons]
      simp [hne]
    · rcases List.mem_cons.1 hb with hby | hbt
      · have h2 := hp.1 a ha
        omega
      · have hya : (y == a) = false := by
          have := hp.1 a ha
          simp only [beq_eq_false_iff_ne, ne_eq]
          omega
        have hyb : (y == b) = false := by
          have := hp.1 b hbt
          simp only [beq_eq_false_iff_ne, ne_eq]
          omega
        rw [List.indexOf_cons, List.indexOf_cons, hya, hyb]
        simpa using ih hp.2 a b ha hbt hab

theorem head_eq_zero (l : List Nat) (hp : l.Pairwise (· < ·)) (h0 : 0 ∈ l) :
    l.head? = some 0 := by
  cases l with
  | nil => cases h0
  | cons a t =>
    rcases List.mem_cons.1 h0 with h | h0
    · rw [← h]
      rfl
    · have := List.rel_of_pairwise_cons hp h0
      omega

theorem getD_indexOf (l : List Nat) {x : Nat} (hx : x ∈ l) :
    l.getD (l.indexOf x) 0 = x := by
  rw [List.getD_eq_getElem?_getD, List.getElem?_indexOf hx]
  rfl

theorem sortGlyfs_head (remap glyfs : List Nat) (h0 : 0 ∈ glyfs)
    (hz : remap.getD 0 0 = 0)
    (hu : ∀ g ∈ glyfs, remap.getD g 0 = 0 → g = 0) :
    (sortGlyfsByRemap remap glyfs).head? = some 0 := by
  unfold sortGlyfsByRemap
  have htrans : ∀ a b c : Nat,
      (fun a b => decide (remap.getD a 0 ≤ remap.getD b 0)) a b = true →
      (fun a b => decide (remap.getD a 0 ≤ remap.getD b 0)) b c = true →
      (fun a b => decide (remap.getD a 0 ≤ remap.getD b 0)) a c = true := by
    intro a b c hab hbc
    simp only [decide_eq_true_eq] at hab hbc ⊢
    omega
  have htotal : ∀ a b : Nat,
      ((fun a b => decide (remap.getD a 0 ≤ remap.getD b 0)) a b ||
       (fun a b => decide (remap.getD a 0 ≤ remap.getD b 0)) b a) = true := by
    intro a b
    simp only [Bool.or_eq_true, decide_eq_true_eq]
    omega
  have hsorted := List.sorted_mergeSort htrans htotal glyfs
  have hperm := List.mergeSort_perm glyfs (fun a b => decide (remap.getD a 0 ≤ remap.getD b 0))
  cases hs : glyfs.mergeSort (fun a b => decide (remap.getD a 0 ≤ remap.getD b 0)) with
  | nil =>
    rw [hs] at hperm
    exact absurd (hperm.symm.subset h0) (List.not_mem_nil 0)
  | cons hh tt =>
    rw [hs] at hsorted hperm
    have hhg : hh ∈ glyfs := hperm.subset (List.mem_cons_self hh tt)
    have h0m : 0 ∈ hh :: tt := hperm.symm.subset h0
    rcases List.mem_cons.1 h0m with h | h0t
    · rw [← h]
      rfl
    · have hle := List.rel_of_pairwise_cons hsorted h0t
      simp only [decide_eq_true_eq, hz] at hle
      have : remap.getD hh 0 = 0 := by omega
      rw [hu hh hhg this]
      rfl

theorem hmtxFirst_found (buf : Nat → Nat) (ptr mco : Nat) :
    ∀ (l : List Nat) (idx i0 g0 w0 : Nat) (acc : List (Nat × Nat)),
      l.findIdx (fun g => decide (mco ≤ g)) < l.length →
      (hmtxFirst buf ptr mco l idx i0 g0 w0 acc).2.1 =
          idx + l.findIdx (fun g => decide (mco ≤ g)) ∧
        (hmtxFirst buf ptr mco l idx i0 g0 w0 acc).2.2.2.2 =
          l.drop (l.findIdx (fun g => decide (mco ≤ g)) + 1) := by
  intro l
  induction l with
  | nil =>
    intro idx i0 g0 w0 acc hf
    simp at hf
  | cons a t ih =>
    intro idx i0 g0 w0 acc hf
    by_cases ha : mco ≤ a
    · have hfa : (a :: t).findIdx (fun g => decide (mco ≤ g)) = 0 := by
        rw [List.findIdx_cons]
        simp [ha]
      rw [hfa]
      simp only [hmtxFirst]
      rw [if_pos ha]
      exact ⟨by simp, by simp⟩
    · have hfa : (a :: t).findIdx (fun g => decide (mco ≤ g)) =
          t.findIdx (fun g => decide (mco ≤ g)) + 1 := by
        rw [List.findIdx_cons]
        simp [ha]
      rw [hfa] at hf ⊢
      have hft : t.findIdx (fun g => decide (mco ≤ g)) < t.length := by
        simp only [List.length_cons] at hf
        omega
      obtain ⟨ih1, ih2⟩ := ih (idx + 1) idx a (readU16 buf (ptr + a * 4))
        (acc ++ [(readU16 buf (ptr + a * 4), readU16 buf (ptr + a * 4 + 2))]) hft
      simp only [hmtxFirst]
      rw [if_neg ha]
      refine ⟨?_, ?_⟩
      · rw [ih1]
        omega
      · rw [ih2, List.drop_succ_cons]

theorem hmtxFirst_none (buf : Nat → Nat) (ptr mco : Nat) :
    ∀ (l : List Nat) (idx i0 g0 w0 : Nat) (acc : List (Nat × Nat)),
      l ≠ [] → (∀ g ∈ l, ¬ mco ≤ g) →
      (hmtxFirst buf ptr mco l idx i0 g0 w0 acc).2.1 = idx + l.length - 1 ∧
        (hmtxFirst buf ptr mco l idx i0 g0 w0 acc).2.2.2.2 = [] := by
  intro l
  induction l with
  | nil =>
    intro idx i0 g0 w0 acc h
    exact absurd rfl h
  | cons a t ih =>
    intro idx i0 g0 w0 acc _ hall
    have ha : ¬ mco ≤ a := hall a (List.mem_cons_self a t)
    simp only [hmtxFirst]
    rw [if_neg ha]
    cases t with
    | nil =>
      simp [hmtxFirst]
    | cons b t2 =>
      obtain ⟨ih1, ih2⟩ := ih (idx + 1) idx a (readU16 buf (ptr + a * 4))
        (acc ++ [(readU16 buf (ptr + a * 4), readU16 buf (ptr + a * 4 + 2))])
        (List.cons_ne_nil b t2) (fun g hg => hall g (List.mem_cons_of_mem a hg))
      refine ⟨?_, ih2⟩
      rw [ih1]
      simp only [List.length_cons]
      omega

theorem hmtxSecond_i (buf : Nat → Nat) (pb gw lw : Nat) :
    ∀ (l : List Nat) (idx i0 : Nat) (acc : List (Nat × Nat)),
      (hmtxSecond buf pb gw lw l idx i0 acc).2 =
        if l = [] then i0 else idx + l.length - 1 := by
  intro l
  induction l with
  | nil =>
    intro idx i0 acc
    rfl
  | cons g t ih =>
    intro idx i0 acc
    simp only [hmtxSecond]
    rw [ih]
    cases t with
    | nil => simp
    | cons b t2 =>
      rw [if_neg (List.cons_ne_nil b t2), if_neg (List.cons_ne_nil g (b :: t2))]
      simp only [List.length_cons]
      omega

theorem indexOf_head_zero (l : List Nat) (hh : l.head? = some 0) : l.indexOf 0 = 0 := by
  cases l with
  | nil => cases hh
  | cons a t =>
    injection hh with hh
    subst hh
    simp [List.indexOf_cons]

theorem getD_zero_of_head (l : List Nat) (hh : l.head? = some 0) : l.getD 0 0 = 0 := by
  cases l with
  | nil => cases hh
  | cons a t =>
    simp only [List.head?_cons, Option.some.injEq] at hh
    simp [hh]

theorem genCmap_nil (font : Font) (glyphIds remap : List Nat) :
    genCmap font glyphIds remap [] = none := by
  unfold genCmap
  split
  · rfl
  · rfl

theorem cmapLoop_some (font : Font) (remap : List Nat) :
    ∀ (l : List Nat) (segs : List (Nat × Nat × Nat)) (start delta charPrev : Nat),
      (∀ c ∈ l, font.gids (c % 65536) < remap.length) →
      segs.length + l.length + 1 < 512 →
      ∃ out, cmapLoop font remap l segs start delta charPrev = some out := by
  intro l
  induction l with
  | nil =>
    intro segs start delta charPrev _ hlen
    simp only [List.length_nil] at hlen
    refine ⟨segs ++ [(start, charPrev, delta), (65535, 65535, 1)], ?_⟩
    simp only [cmapLoop]
    rw [if_pos (by omega)]
  | cons c rest ih =>
    intro segs start delta charPrev hremap hlen
    simp only [List.length_cons] at hlen
    simp only [cmapLoop]
    rw [if_pos (hremap c (List.mem_cons_self c rest))]
    by_cases hgap : (c % 65536 + 65536 - charPrev) % 65536 > 1
    · rw [if_pos hgap, if_pos (by omega)]
      exact ih _ _ _ _ (fun x hx => hremap x (List.mem_cons_of_mem c hx))
        (by simp only [List.length_append, List.length_cons, List.length_nil]; omega)
    · rw [if_neg hgap]
      exact ih _ _ _ _ (fun x hx => hremap x (List.mem_cons_of_mem c hx)) (by omega)

theorem generate_font_eq (buf : Nat → Nat) (locaPtr glyfPtr hmtxPtr : Nat) (font : Font)
    (chars : List Nat) (fuel cfuel : Nat) :
    (generate buf locaPtr glyfPtr hmtxPtr font chars fuel cfuel).map Prod.snd =
      (generate buf locaPtr glyfPtr hmtxPtr font chars fuel cfuel).map (fun _ => font) := by
  unfold generate
  cases hb : genGlyfAndLoca buf locaPtr glyfPtr font chars fuel cfuel with
  | none => rfl
  | some p =>
    obtain ⟨a, b⟩ := p
    cases hc : genCmap font b (gidRemapArr b) chars with
    | none => simp [hc]
    | some segs => simp [hc]

/-- Claim C1: for every requested codepoint set and well-formed source font,
the glyf table produced by a Generate call contains glyph 0, the glyph of
every requested codepoint, and every glyph transitively reachable through
composite-glyph component references; and every component glyph-ID field
patched into the output (the remap-array entry for the component) refers to
a glyph included in the subset: its value is a valid dense new ID below the
subset size, and the subset glyph at that new ID is the component itself. -/
theorem c1_glyf_closure_complete (buf : Nat → Nat) (locaPtr glyfPtr : Nat) (font : Font)
    (chars : List Nat) (fuel cfuel : Nat) (glyfs seen seeds : List Nat)
    (hg : ∀ n, font.gids n < 65536)
    (hs : seedGids font chars (bsInsert 0 []) = some seeds)
    (h : genGlyfAndLoca buf locaPtr glyfPtr font chars fuel cfuel = some (glyfs, seen)) :
    0 ∈ glyfs ∧
    (∀ c ∈ chars, ∀ g, font.glyphId c = some g → g ∈ glyfs) ∧
    (∀ g, Reach (compOf buf locaPtr font.locaFormat glyfPtr cfuel) seeds g → g ∈ glyfs) ∧
    (∀ g ∈ glyfs, ∀ cs, compOf buf locaPtr font.locaFormat glyfPtr cfuel g = some cs →
      ∀ c ∈ cs, c ∈ glyfs ∧
        (gidRemapArr seen).getD c 0 < seen.length ∧
        seen.getD ((gidRemapArr seen).getD c 0) 0 = c) := by
  unfold genGlyfAndLoca at h
  split at h
  · rename_i hnone
    rw [hnone] at hs
    cases hs
  · rename_i seeds' hsome
    rw [hsome] at hs
    injection hs with hs
    subst hs
    have h0acc : (0 : Nat) ∈ bsInsert 0 [] := by simp [bsInsert]
    have h0seed : (0 : Nat) ∈ seeds' := seedGids_sub font chars _ _ hsome 0 h0acc
    have hpwseed : seeds'.Pairwise (· < ·) :=
      seedGids_pairwise font chars _ _ (by simp [bsInsert]) hsome
    have hltseed : ∀ x ∈ seeds', x < 65536 := by
      intro x hx
      rcases seedGids_src font chars _ _ hsome x hx with hx | ⟨c, _, hcg⟩
      · simp [bsInsert] at hx
        omega
      · obtain ⟨he, _⟩ := glyphId_some hcg
        rw [he]
        exact hg c
    have hcompb : ∀ g cs, compOf buf locaPtr font.locaFormat glyfPtr cfuel g = some cs →
        ∀ c ∈ cs, c < 65536 := fun g cs hcs => compOf_lt buf _ _ _ _ g cs hcs
    obtain ⟨m1, m2, m3, m4, m5, m6, m7⟩ :=
      closureLoop_spec _ hcompb fuel seeds' seeds' [] glyfs seen h
        (fun x hx => hx) (fun x hx => Or.inr hx)
        (fun g hg2 => absurd hg2 (List.not_mem_nil g))
        (fun g hg2 => absurd hg2 (List.not_mem_nil g))
        hpwseed hltseed
    have hlen : seen.length ≤ 65536 := length_le_of_pairwise_lt seen m6 m7
    refine ⟨m3 0 (m1 0 h0seed), ?_, ?_, ?_⟩
    · intro c hc g hgl
      exact m3 g (m1 g (seedGids_mem_char font chars _ _ hsome c hc g hgl))
    · intro g hr
      induction hr with
      | seed g2 hg2 => exact m3 g2 (m1 g2 hg2)
      | step g2 c2 cs2 hr2 hcs2 hc2 ih2 => exact m3 c2 (m5 g2 ih2 cs2 hcs2 c2 hc2)
    · intro g hgf cs hcs c hc
      have hcseen : c ∈ seen := m5 g hgf cs hcs c hc
      have hre : (gidRemapArr seen).getD c 0 = seen.indexOf c :=
        gidRemapArr_getD seen m6 hcseen hlen
      refine ⟨m3 c hcseen, ?_, ?_⟩
      · rw [hre]
        exact List.indexOf_lt_length.2 hcseen
      · rw [hre]
        exact getD_indexOf seen hcseen

/-- Witness for C1: the concrete font whose codepoint 0x41 maps to glyph 1,
a composite that references glyph 2; the emitted subset is glyphs 0, 1, 2. -/
theorem c1_glyf_closure_complete_witness :
    (∀ n, wFont.gids n < 65536) ∧
    seedGids wFont [65] (bsInsert 0 []) = some [0, 1] ∧
    genGlyfAndLoca wBuf 0 100 wFont [65] 10 10 = some ([0, 1, 2], [0, 1, 2]) ∧
    (0 ∈ ([0, 1, 2] : List Nat) ∧
      (∀ c ∈ [65], ∀ g, wFont.glyphId c = some g → g ∈ ([0, 1, 2] : List Nat)) ∧
      (∀ g, Reach (compOf wBuf 0 wFont.locaFormat 100 10) [0, 1] g →
        g ∈ ([0, 1, 2] : List Nat)) ∧
      (∀ g ∈ ([0, 1, 2] : List Nat), ∀ cs, compOf wBuf 0 wFont.locaFormat 100 10 g = some cs →
        ∀ c ∈ cs, c ∈ ([0, 1, 2] : List Nat) ∧
          (gidRemapArr [0, 1, 2]).getD c 0 < ([0, 1, 2] : List Nat).length ∧
          ([0, 1, 2] : List Nat).getD ((gidRemapArr [0, 1, 2]).getD c 0) 0 = c)) := by
  have hg : ∀ n, wFont.gids n < 65536 := by
    intro n
    show (if n = 65 then 1 else 0) < 65536
    split <;> omega
  exact ⟨hg, by decide, by decide,
    c1_glyf_closure_complete wBuf 0 100 wFont [65] 10 10 [0, 1, 2] [0, 1, 2] [0, 1]
      hg (by decide) (by decide)⟩

/-- Claim C2 (code bug, evaluated at the failing input): `genCmap` hard-codes
the first segment's delta as `u16(1 - start)` instead of
`newGlyphID(start) - start (mod 2^16)`.  With codepoints 0x41 -> glyph 5 and
0x42 -> glyph 2 the subset glyph list is `[0, 2, 5]`, so codepoint 0x41's
remapped glyph ID is 2 and the claimed delta is 65473; the code emits 65472,
and a format-4 lookup of 0x41 returns glyph 1 instead of glyph 2.  The
trailing sentinel segment `(0xFFFF, 0xFFFF, 1)` is appended as claimed. -/
theorem c2_cmap_first_segment_delta_eval :
    (generate zBuf 0 0 0 cFont [65, 66] 10 10).map (fun p => p.1.glyphIds) = some [0, 2, 5] ∧
    (generate zBuf 0 0 0 cFont [65, 66] 10 10).map (fun p => p.1.segs) =
      some [(65, 66, 65472), (65535, 65535, 1)] ∧
    (gidRemapArr [0, 2, 5]).getD (cFont.gids 65) 0 = 2 ∧
    (2 + 65536 - 65) % 65536 = 65473 ∧
    (65 + 65472) % 65536 = 1 ∧
    (65472 : Nat) ≠ 65473 := by
  exact ⟨by decide, by decide, by decide, by decide, by decide, by decide⟩

/-- Claim C3 (code bug, evaluated at the failing input): the checksum loop of
`genIndexEntry` starts summing at buffer offset 0 instead of the table's own
offset.  For a table of length 4 at offset 4 in a buffer whose first two
big-endian u32 words are 1 and 2, the code stores 1 while the spec's
checksum over the table's own padded bytes is 2. -/
theorem c3_checksum_offset_eval :
    genIndexEntry iBuf ⟨4, 4⟩ = 1 ∧ specTableChecksum iBuf ⟨4, 4⟩ = 2 ∧ (1 : Nat) ≠ 2 := by
  decide

/-- Claim C4 (code bug, evaluated at the failing input): the first `genHmtx`
loop reads the width of the first glyph past the `numberOfHMetrics` boundary
at `hmtxPtr + gid*4`, which lies beyond the long-metrics array, before
breaking.  With 2 long metrics of widths 100 and 200 and subset glyphs
`[0, 3]`, the entry for glyph 3 is written with width 50 — bytes taken from
the trailing side-bearing array — instead of the shared final long-metric
width 200. -/
theorem c4_hmtx_width_truncation_eval :
    genHmtx hBuf 0 2 [0, 3] = ([(100, 10), (50, 60)], 4) ∧
    readU16 hBuf ((2 - 1) * 4) = 200 ∧
    (50 : Nat) ≠ 200 := by
  decide

/-- Claim C5 counterexample: with a single subset glyph `[0]` and original
`numberOfHMetrics = 1`, the boundary is never crossed, the stale shared loop
index is re-added, and `genHmtx` returns metric count 2 — not the count of
subset glyphs through the boundary (1), and not at most the total subset
glyph count (1). -/
theorem c5_metric_count_counterexample :
    (genHmtx zBuf 0 1 [0]).2 = 2 ∧ ¬ (2 : Nat) ≤ ([0] : List Nat).length := by
  decide

/-- Claim C5 as amended: the metric count returned by `genHmtx` (and patched
into hhea) equals the total subset glyph count when the first subset glyph
with old ID at or past the original `numberOfHMetrics` boundary exists and
is not the last subset glyph; otherwise — boundary never crossed, or crossed
only at the last glyph — the stale shared loop index makes it twice the
total subset glyph count (mod 2^16), which exceeds the total. -/
theorem c5_metric_count_amended (buf : Nat → Nat) (ptr mco : Nat) (l : List Nat)
    (h0 : l ≠ []) (hlen : l.length < 65536) :
    (genHmtx buf ptr mco l).2 =
      if l.findIdx (fun g => decide (mco ≤ g)) + 1 < l.length then l.length
      else 2 * l.length % 65536 := by
  have hfle : l.findIdx (fun g => decide (mco ≤ g)) ≤ l.length :=
    List.findIdx_le_length (fun g => decide (mco ≤ g))
  have hl1 : 1 ≤ l.length := List.length_pos.2 h0
  simp only [genHmtx]
  by_cases hc : l.findIdx (fun g => decide (mco ≤ g)) < l.length
  · obtain ⟨h1, h2⟩ := hmtxFirst_found buf ptr mco l 0 0 0 0 [] hc
    rw [h1, h2, hmtxSecond_i]
    by_cases hcc : l.findIdx (fun g => decide (mco ≤ g)) + 1 < l.length
    · rw [if_pos hcc]
      have hdne : l.drop (l.findIdx (fun g => decide (mco ≤ g)) + 1) ≠ [] := by
        intro he
        have hle2 := congrArg List.length he
        rw [List.length_drop] at hle2
        simp at hle2
        omega
      rw [if_neg hdne, List.length_drop]
      omega
    · have hdeq : l.drop (l.findIdx (fun g => decide (mco ≤ g)) + 1) = [] := by
        apply List.eq_nil_of_length_eq_zero
        rw [List.length_drop]
        omega
      rw [if_pos hdeq, if_neg hcc]
      omega
  · have hj : l.findIdx (fun g => decide (mco ≤ g)) = l.length := by omega
    have hall : ∀ g ∈ l, ¬ mco ≤ g := by
      intro g hg2
      have := List.findIdx_eq_length.1 hj g hg2
      simpa using this
    obtain ⟨h1, h2⟩ := hmtxFirst_none buf ptr mco l 0 0 0 0 [] h0 hall
    rw [h1, h2, hmtxSecond_i, if_pos rfl, if_neg (by omega)]
    omega

/-- Witness for C5 as amended: subset glyphs `[0, 3, 7]` with original
`numberOfHMetrics = 2` cross the boundary before the last glyph, giving
metric count 3 — the total subset glyph count. -/
theorem c5_metric_count_amended_witness :
    (genHmtx zBuf 0 2 [0, 3, 7]).2 =
      if List.findIdx (fun g => decide (2 ≤ g)) [0, 3, 7] + 1 < ([0, 3, 7] : List Nat).length
      then ([0, 3, 7] : List Nat).length
      else 2 * ([0, 3, 7] : List Nat).length % 65536 :=
  c5_metric_count_amended zBuf 0 2 [0, 3, 7] (by decide) (by decide)

/-- Claim C6: in every successful run of the glyph-collection stage, glyph 0
is in the subset at new ID 0 (it heads the ascending subset list), the glyf
entries sorted by remapped ID emit glyph 0 first, new IDs are dense
(remapping the k-th subset glyph gives exactly k) and strictly increasing in
original-ID order, and the old-to-new remap array's length is the maximum
original glyph ID in the closure plus 1. -/
theorem c6_glyph_zero_dense_remap (buf : Nat → Nat) (locaPtr glyfPtr : Nat) (font : Font)
    (chars : List Nat) (fuel cfuel : Nat) (glyfs seen seeds : List Nat)
    (hg : ∀ n, font.gids n < 65536)
    (hs : seedGids font chars (bsInsert 0 []) = some seeds)
    (h : genGlyfAndLoca buf locaPtr glyfPtr font chars fuel cfuel = some (glyfs, seen)) :
    seen.head? = some 0 ∧
    (sortGlyfsByRemap (gidRemapArr seen) glyfs).head? = some 0 ∧
    (∀ a ∈ seen, ∀ b ∈ seen, a < b →
      (gidRemapArr seen).getD a 0 < (gidRemapArr seen).getD b 0) ∧
    (∀ k, k < seen.length → (gidRemapArr seen).getD (seen.getD k 0) 0 = k) ∧
    (∃ m ∈ seen, (∀ x ∈ seen, x ≤ m) ∧ (gidRemapArr seen).length = m + 1) := by
  unfold genGlyfAndLoca at h
  split at h
  · rename_i hnone
    rw [hnone] at hs
    cases hs
  · rename_i seeds' hsome
    rw [hsome] at hs
    injection hs with hs
    subst hs
    have h0acc : (0 : Nat) ∈ bsInsert 0 [] := by simp [bsInsert]
    have h0seed : (0 : Nat) ∈ seeds' := seedGids_sub font chars _ _ hsome 0 h0acc
    have hpwseed : seeds'.Pairwise (· < ·) :=
      seedGids_pairwise font chars _ _ (by simp [bsInsert]) hsome
    have hltseed : ∀ x ∈ seeds', x < 65536 := by
      intro x hx
      rcases seedGids_src font chars _ _ hsome x hx with hx | ⟨c, _, hcg⟩
      · simp [bsInsert] at hx
        omega
      · obtain ⟨he, _⟩ := glyphId_some hcg
        rw [he]
        exact hg c
    have hcompb : ∀ g cs, compOf buf locaPtr font.locaFormat glyfPtr cfuel g = some cs →
        ∀ c ∈ cs, c < 65536 := fun g cs hcs => compOf_lt buf _ _ _ _ g cs hcs
    obtain ⟨m1, m2, m3, m4, m5, m6, m7⟩ :=
      closureLoop_spec _ hcompb fuel seeds' seeds' [] glyfs seen h
        (fun x hx => hx) (fun x hx => Or.inr hx)
        (fun g hg2 => absurd hg2 (List.not_mem_nil g))
        (fun g hg2 => absurd hg2 (List.not_mem_nil g))
        hpwseed hltseed
    have hlen : seen.length ≤ 65536 := length_le_of_pairwise_lt seen m6 m7
    have h0seen : (0 : Nat) ∈ seen := m1 0 h0seed
    have hhead : seen.head? = some 0 := head_eq_zero seen m6 h0seen
    have hnd : seen.Nodup := m6.imp Nat.ne_of_lt
    refine ⟨hhead, ?_, ?_, ?_, ?_⟩
    · apply sortGlyfs_head
      · exact m3 0 h0seen
      · rw [gidRemapArr_getD seen m6 h0seen hlen]
        exact indexOf_head_zero seen hhead
      · intro g hgf hg0
        have hgseen : g ∈ seen := m4 g hgf
        rw [gidRemapArr_getD seen m6 hgseen hlen] at hg0
        have hgg := getD_indexOf seen hgseen
        rw [hg0] at hgg
        have h00 := getD_zero_of_head seen hhead
        omega
    · intro a ha b hb hab
      rw [gidRemapArr_getD seen m6 ha hlen, gidRemapArr_getD seen m6 hb hlen]
      exact indexOf_lt_of_lt seen m6 a b ha hb hab
    · intro k hk
      have hgd : seen.getD k 0 = seen[k] := by
        rw [List.getD_eq_getElem?_getD, List.getElem?_eq_getElem hk]
        rfl
      have hmem : seen.getD k 0 ∈ seen := by
        rw [hgd]
        exact List.getElem_mem hk
      rw [gidRemapArr_getD seen m6 hmem hlen, hgd]
      exact List.indexOf_getElem hnd k hk
    · exact ⟨seen.getLastD 0, getLastD_mem seen (List.ne_nil_of_mem h0seen),
        fun x hx => sortedLast seen 0 m6 x hx, gidRemapArr_length seen⟩

/-- Witness for C6 at the same concrete composite font: subset `[0, 1, 2]`
with glyph 0 first, identity-dense remap of length 3. -/
theorem c6_glyph_zero_dense_remap_witness :
    (∀ n, wFont.gids n < 65536) ∧
    seedGids wFont [65] (bsInsert 0 []) = some [0, 1] ∧
    genGlyfAndLoca wBuf 0 100 wFont [65] 10 10 = some ([0, 1, 2], [0, 1, 2]) ∧
    (([0, 1, 2] : List Nat).head? = some 0 ∧
      (sortGlyfsByRemap (gidRemapArr [0, 1, 2]) [0, 1, 2]).head? = some 0 ∧
      (∀ a ∈ ([0, 1, 2] : List Nat), ∀ b ∈ ([0, 1, 2] : List Nat), a < b →
        (gidRemapArr [0, 1, 2]).getD a 0 < (gidRemapArr [0, 1, 2]).getD b 0) ∧
      (∀ k, k < ([0, 1, 2] : List Nat).length →
        (gidRemapArr [0, 1, 2]).getD (([0, 1, 2] : List Nat).getD k 0) 0 = k) ∧
      (∃ m ∈ ([0, 1, 2] : List Nat), (∀ x ∈ ([0, 1, 2] : List Nat), x ≤ m) ∧
        (gidRemapArr [0, 1, 2]).length = m + 1)) := by
  have hg : ∀ n, wFont.gids n < 65536 := by
    intro n
    show (if n = 65 then 1 else 0) < 65536
    split <;> omega
  exact ⟨hg, by decide, by decide,
    c6_glyph_zero_dense_remap wBuf 0 100 wFont [65] 10 10 [0, 1, 2] [0, 1, 2] [0, 1]
      hg (by decide) (by decide)⟩

/-- Claim C7 (code bug, evaluated at the failing inputs): `parseOs2` defines
`flagEmbedBitmapOnly = 0b100000000` (bit 8, the no-subsetting bit per the
fsType table quoted in the code's own comment) instead of bit 9.  A
bitmap-embedding-only font (fsType 0x0200) is not rejected, while a
no-subsetting font (fsType 0x0100), which carries neither of the claimed
restriction bits, is rejected.  A licensed font (fsType 0x0002) is rejected
as claimed. -/
theorem c7_os2_restriction_bits_eval :
    parseOs2Rejects 512 = false ∧ parseOs2Rejects 256 = true ∧ parseOs2Rejects 2 = true := by
  decide

/-- Claim C8: a Generate call leaves the font model unchanged — the embedded
pipeline threads the font through explicitly, and whenever it produces a
result the font component equals the input font, for both of two
independent calls (in particular with disjoint codepoint sets). -/
theorem c8_generate_preserves_font (buf : Nat → Nat) (locaPtr glyfPtr hmtxPtr : Nat)
    (font : Font) (chars1 chars2 : List Nat) (fuel cfuel : Nat) :
    (generate buf locaPtr glyfPtr hmtxPtr font chars1 fuel cfuel).map Prod.snd =
      (generate buf locaPtr glyfPtr hmtxPtr font chars1 fuel cfuel).map (fun _ => font) ∧
    (generate buf locaPtr glyfPtr hmtxPtr font chars2 fuel cfuel).map Prod.snd =
      (generate buf locaPtr glyfPtr hmtxPtr font chars2 fuel cfuel).map (fun _ => font) :=
  ⟨generate_font_eq buf locaPtr glyfPtr hmtxPtr font chars1 fuel cfuel,
   generate_font_eq buf locaPtr glyfPtr hmtxPtr font chars2 fuel cfuel⟩

/-- Claim C9: `Font.GlyphId` is defined exactly on codepoints 0..0xFFFF:
the lookup into the 65536-entry codepoint table succeeds (returning the
table entry, 0 for unmapped codepoints) for every codepoint at or below
0xFFFF, and panics (models as `none`) for every codepoint above 0xFFFF. -/
theorem c9_glyph_id_bounds (f : Font) (char : Nat) :
    (char ≤ 65535 → f.glyphId char = some (f.gids char)) ∧
    (65535 < char → f.glyphId char = none) := by
  constructor
  · intro h
    unfold Font.glyphId
    rw [if_pos (by omega)]
  · intro h
    unfold Font.glyphId
    rw [if_neg (by omega)]

/-- Witness for C9: codepoint 0x41 is looked up in bounds; the
supplementary-plane codepoint 70000 panics. -/
theorem c9_glyph_id_bounds_witness :
    wFont.glyphId 65 = some (wFont.gids 65) ∧ wFont.glyphId 70000 = none :=
  ⟨(c9_glyph_id_bounds wFont 65).1 (by decide),
   (c9_glyph_id_bounds wFont 70000).2 (by decide)⟩

/-- Claim C10: Generate requires a non-empty requested codepoint set.  For
every non-empty codepoint list (and subset headed by glyph 0) the initial
segment construction's access to the first requested codepoint is in
bounds — `genCmap` proceeds into the segment loop seeded from that first
codepoint, and runs to completion whenever the remap array covers every
requested glyph and the fixed 512-entry segment arrays are not exhausted.
For the empty list it indexes element 0 of an empty slice and panics
(`none`), so the whole Generate pipeline produces no output. -/
theorem c10_generate_nonempty_chars :
    (∀ (font : Font) (ids remap : List Nat) (c0 : Nat) (rest : List Nat),
      genCmap font (0 :: ids) remap (c0 :: rest) =
        cmapLoop font remap (c0 :: rest) [] (c0 % 65536)
          ((1 + 65536 - c0 % 65536) % 65536) (c0 % 65536)) ∧
    (∀ (font : Font) (ids remap : List Nat) (c0 : Nat) (rest : List Nat),
      (c0 :: rest).length + 1 < 512 →
      (∀ c ∈ c0 :: rest, font.gids (c % 65536) < remap.length) →
      ∃ segs, genCmap font (0 :: ids) remap (c0 :: rest) = some segs) ∧
    (∀ (font : Font) (ids remap : List Nat), genCmap font (0 :: ids) remap [] = none) ∧
    (∀ (buf : Nat → Nat) (locaPtr glyfPtr hmtxPtr : Nat) (font : Font) (fuel cfuel : Nat),
      generate buf locaPtr glyfPtr hmtxPtr font [] fuel cfuel = none) := by
  refine ⟨?_, ?_, ?_, ?_⟩
  · intro font ids remap c0 rest
    rfl
  · intro font ids remap c0 rest hlen hremap
    obtain ⟨out, hout⟩ := cmapLoop_some font remap (c0 :: rest) [] (c0 % 65536)
      ((1 + 65536 - c0 % 65536) % 65536) (c0 % 65536) hremap
      (by simpa using hlen)
    exact ⟨out, hout⟩
  · intro font ids remap
    rfl
  · intro buf locaPtr glyfPtr hmtxPtr font fuel cfuel
    unfold generate
    cases hb : genGlyfAndLoca buf locaPtr glyfPtr font [] fuel cfuel with
    | none => rfl
    | some p =>
      obtain ⟨a, b⟩ := p
      simp [genCmap_nil]

/-- Witness for C10: the singleton codepoint list `[65]` on the witness
font, with a remap covering its glyph, yields a cmap; the hypotheses of the
non-empty case are discharged concretely. -/
theorem c10_generate_nonempty_chars_witness :
    ∃ segs, genCmap wFont (0 :: [1]) [0, 1] (65 :: []) = some segs :=
  c10_generate_nonempty_chars.2.1 wFont [1] [0, 1] 65 [] (by decide) (by decide)

end Ttf
